import Mathlib

/-!
Verification of the walk-forward analysis engine in
`src/42_VectorbtWalkforwardAnalysis.ipynb`.

The notebook drives a walk-forward parameter optimization: it splits a price
series into rolling in-sample/out-of-sample windows, grid-searches moving
average window pairs in-sample, selects the best pair per split
(`get_best_index`), re-simulates the selected pair on the out-of-sample
segment (`simulate_best_params`), and runs a one-sided two-sample t-test on
the two score vectors.

Scores are modelled as `Option ℚ` (`none` plays the role of NaN: pandas
`idxmax`/`idxmin` skip NaN).  Functions that exist in the notebook are
embedded from their source; components whose implementation lives in the
vectorbt / scipy libraries (rolling_split, run_combs, the significance
wrapper) are modelled from the spec and carry a doc comment saying so.
-/

namespace WalkForward

/-- Error taxonomy of the spec (section 7). -/
inductive WFError
  | insufficientData
  | noValidSelection
  | misalignedInput
deriving DecidableEq, Repr

/-- A (fast_window, slow_window) parameter pair. -/
abbrev Pair := ℕ × ℕ

/-- Row label of the score table: (split_idx, (fast_window, slow_window)). -/
abbrev Key := ℕ × Pair

/-- One score-table row: key and score; `none` models NaN. -/
abbrev Row := Key × Option ℚ

/-- The score table: rows in pandas row order. -/
abbrev ScoreTable := List Row

/-- A split: half-open in-sample range [inLo, inHi) and out-of-sample range
[outLo, outHi) over the series index domain. -/
structure Split where
  inLo : ℕ
  inHi : ℕ
  outLo : ℕ
  outHi : ℕ
deriving DecidableEq, Repr

/-- Modelled from the spec: window start positions used by the RollingSplitter
(the notebook calls `vbt`'s `rolling_split`, library code not in the
repository).  With no explicit count the placement is non-overlapping and
anchored from the end of the series (the notebook passes
`left_to_right=False`), so any remainder is dropped at the start; with an
explicit count `n` the `n` window starts are spaced evenly across the
series. -/
def startsOf (len window_len : ℕ) (nOpt : Option ℕ) : List ℕ :=
  match nOpt with
  | none =>
      (List.range (len / window_len)).map (fun i => len % window_len + i * window_len)
  | some n =>
      if n = 1 then [len - window_len]
      else (List.range n).map (fun i => i * (len - window_len) / (n - 1))

/-- Build one split from a window start: the first `inLen` observations are
in-sample, the rest of the window is out-of-sample. -/
def mkSplit (inLen window_len start : ℕ) : Split :=
  { inLo := start, inHi := start + inLen,
    outLo := start + inLen, outHi := start + window_len }

/-- Modelled from the spec: the RollingSplitter contract (section 4.1); the
notebook delegates to `vbt`'s `rolling_split`, library code not in the
repository.  `window_len` observations per window, of which the final
`oosLen` are out-of-sample (`set_lens=(oosLen,)`); fails with
`InsufficientDataError` when the series is shorter than `window_len`. -/
def rolling_split (len window_len oosLen : ℕ) (nOpt : Option ℕ) :
    Except WFError (List Split) :=
  if len < window_len then Except.error WFError.insufficientData
  else Except.ok ((startsOf len window_len nOpt).map (mkSplit (window_len - oosLen) window_len))

/-! ## BestSelector: `get_best_index` (embedded from the notebook)

The notebook defines

  def get_best_index(performance, higher_better=True):
      if higher_better:
          return performance[performance.groupby('split_idx').idxmax()].index
      return performance[performance.groupby('split_idx').idxmin()].index

pandas semantics embedded here: `groupby('split_idx')` visits the groups in
ascending order of split_idx; within one group, `idxmax` (`idxmin`) skips
NaN, returns the label of the first row attaining the maximum (minimum), and
fails when the group holds no non-NaN value. -/

/-- The rows of `t` whose split_idx equals `s`, in table row order
(a pandas groupby group). -/
def groupOf (t : ScoreTable) (s : ℕ) : ScoreTable :=
  t.filter (fun r => decide (r.1.1 = s))

/-- Score comparison: `betterB hb x y` holds when `x` is strictly better
than `y` (greater when `hb`, smaller otherwise). -/
def betterB (hb : Bool) (x y : ℚ) : Bool :=
  if hb then decide (y < x) else decide (x < y)

/-- Combine the current row (key `k`, non-NaN score `v`) with the best of
the remaining rows, keeping the current row on ties (first occurrence
wins). -/
def pickBetter (hb : Bool) (k : Key) (v : ℚ) : Option (Key × ℚ) → Option (Key × ℚ)
  | none => some (k, v)
  | some (k2, w) => if betterB hb w v then some (k2, w) else some (k, v)

/-- Row label of the first row attaining the extreme non-NaN score of a
group, together with that score (pandas `idxmax` / `idxmin` with
skipna). `none` when every row is NaN. -/
def idxmaxAux (hb : Bool) : ScoreTable → Option (Key × ℚ)
  | [] => none
  | (_, none) :: rest => idxmaxAux hb rest
  | (k, some v) :: rest => pickBetter hb k v (idxmaxAux hb rest)

/-- Per-split selection: extreme row of the split's group. -/
def selectSplit (hb : Bool) (t : ScoreTable) (s : ℕ) : Option (Key × ℚ) :=
  idxmaxAux hb (groupOf t s)

/-- Insert into a strictly sorted list of split ids, skipping duplicates. -/
def sortedInsert (x : ℕ) : List ℕ → List ℕ
  | [] => [x]
  | y :: ys =>
      if x < y then x :: y :: ys
      else if x = y then y :: ys
      else y :: sortedInsert x ys

/-- The distinct split ids of a table in ascending order (the group keys a
pandas groupby visits). -/
def splitIdsSorted (t : ScoreTable) : List ℕ :=
  t.foldr (fun r acc => sortedInsert r.1.1 acc) []

/-- Prepend a selected key to the selections of the remaining splits,
propagating failure. -/
def consSelection (kv : Key × ℚ) : Except WFError (List Key) → Except WFError (List Key)
  | Except.error e => Except.error e
  | Except.ok ks => Except.ok (kv.1 :: ks)

/-- One step of per-split selection: fail on an all-NaN group, otherwise
keep the selected row label. -/
def selectOne (res : Option (Key × ℚ)) (rest : Except WFError (List Key)) :
    Except WFError (List Key) :=
  match res with
  | none => Except.error WFError.noValidSelection
  | some kv => consSelection kv rest

/-- Selection for a list of split ids: the best row label for each id, or
the failure pandas raises on an all-NaN group. -/
def selectAll (hb : Bool) (t : ScoreTable) : List ℕ → Except WFError (List Key)
  | [] => Except.ok []
  | s :: ss => selectOne (selectSplit hb t s) (selectAll hb t ss)

/-- Embedding of the notebook's `get_best_index`: group the score table by
split_idx, take the extreme row of each group, return the row labels. -/
def get_best_index (hb : Bool) (t : ScoreTable) : Except WFError (List Key) :=
  selectAll hb t (splitIdsSorted t)

/-! ## ParameterGrid -/

/-- Modelled from the spec: the grid enumeration performed by
`vbt.MA.run_combs(price, windows, r=2)` inside `simulate_all_params`
(library code not in the repository): all 2-combinations of the candidate
windows, without repetition, pairing each candidate with every later
candidate. -/
def run_combs_pairs : List ℕ → List Pair
  | [] => []
  | x :: xs => xs.map (fun y => (x, y)) ++ run_combs_pairs xs

/-- Strict lexicographic order on parameter pairs. -/
def lexLt (p q : Pair) : Prop :=
  p.1 < q.1 ∨ (p.1 = q.1 ∧ p.2 < q.2)

/-! ## Out-of-sample validation (`simulate_best_params`, embedded) -/

/-- The two index levels `get_best_params` can extract
(`'fast_window'` / `'slow_window'`). -/
inductive Level
  | fastWindow
  | slowWindow
deriving DecidableEq, Repr

/-- Embedding of the notebook's `get_best_params`: project the chosen level
of every label of the best index. -/
def get_best_params (best_index : List Key) (level : Level) : List ℕ :=
  best_index.map (fun k =>
    match level with
    | Level.fastWindow => k.2.1
    | Level.slowWindow => k.2.2)

/-- The observations of a series falling in the half-open index range
[lo, hi): one segment of a split. -/
def segmentOf (series : List ℚ) (lo hi : ℕ) : List ℚ :=
  (series.drop lo).take (hi - lo)

/-- The out-of-sample segment of every split, as the columns the notebook's
`out_price` frame holds. -/
def outSegments (series : List ℚ) (splits : List Split) : List (List ℚ) :=
  splits.map (fun sp => segmentOf series sp.outLo sp.outHi)

/-- Embedding of the notebook's `simulate_best_params`: with
`per_column=True` the i-th price column is simulated once with the i-th
selected (fast, slow) pair; the signal/portfolio machinery is the external
simulator collaborator `sim`. -/
def simulate_best_params (sim : List ℚ → Pair → ℚ)
    (priceColumns : List (List ℚ)) (best_fast_windows best_slow_windows : List ℕ) :
    List ℚ :=
  (priceColumns.zip (best_fast_windows.zip best_slow_windows)).map
    (fun c => sim c.1 c.2)

/-! ## Significance test (notebook cells 36 and 38, plus the spec's
SignificanceTester wrapper) -/

/-- The `alternative` argument of the two-sample test. -/
inductive Alt
  | greater
  | less
  | twoSided
deriving DecidableEq, Repr

/-- One invocation of the external two-sample test: first sample `a`,
second sample `b`, and the alternative hypothesis. -/
structure TTestCall where
  a : List ℚ
  b : List ℚ
  alternative : Alt
deriving Repr

/-- Embedding of the notebook's test invocation
`stats.ttest_ind(a=out_sample_test, b=in_sample_best, alternative="greater")`:
the out-of-sample vector is the first sample, hypothesized greater. -/
def ttestCallOfRun (out_sample_test in_sample_best : List ℚ) : TTestCall :=
  { a := out_sample_test, b := in_sample_best, alternative := Alt.greater }

/-- Embedding of the notebook's decision cell `p > 0.05`, evaluated on the
p-value the external test returns for the notebook's invocation. -/
def overfitSignal (ttest : TTestCall → ℚ × ℚ)
    (out_sample_test in_sample_best : List ℚ) : Bool :=
  decide ((ttest (ttestCallOfRun out_sample_test in_sample_best)).2 > (1 : ℚ) / 20)

/-- Modelled from the spec: the SignificanceTester wrapper (section 4.6) is
not in the repository (the notebook calls `stats.ttest_ind` directly); the
wrapper requires both score vectors aligned and of equal nonzero length,
failing with `MisalignedInputError` otherwise, and interprets the returned
p-value against the significance threshold. -/
def compareScores (ttest : TTestCall → ℚ × ℚ)
    (in_sample_scores out_sample_scores : List ℚ) (threshold : ℚ) :
    Except WFError (ℚ × ℚ × Bool) :=
  if in_sample_scores.length = out_sample_scores.length ∧ in_sample_scores.length ≠ 0 then
    let tp := ttest (ttestCallOfRun out_sample_scores in_sample_scores)
    Except.ok (tp.1, tp.2, decide (tp.2 > threshold))
  else Except.error WFError.misalignedInput

/-! ## Concrete tables used by the witness theorems -/

/-- A table whose split 0 has one non-NaN row and whose split 1 is all
NaN. -/
def tC1 : ScoreTable :=
  [((0, (10, 20)), some 1), ((0, (20, 30)), none), ((1, (10, 20)), none)]

/-- Two tied rows of split 0, listed in grid enumeration order. -/
def tC8A : ScoreTable :=
  [((0, (10, 20)), some 1), ((0, (20, 30)), some 1)]

/-- The same two tied rows, listed in reversed order. -/
def tC8B : ScoreTable :=
  [((0, (20, 30)), some 1), ((0, (10, 20)), some 1)]

/-- A two-split table with a non-NaN entry in every split. -/
def tC10 : ScoreTable :=
  [((1, (10, 20)), some 2), ((0, (10, 20)), none), ((0, (10, 30)), some 1)]

/-- A 10-observation series. -/
def sC9 : List ℚ := [0, 1, 2, 3, 4, 5, 6, 7, 8, 9]

/-- The same series with every observation outside index 9 (the second
split's out-of-sample range) rewritten. -/
def sC9b : List ℚ := [100, 100, 100, 100, 100, 100, 100, 100, 100, 9]

/-- The two splits the notebook's 10-point scenario yields. -/
def splitsC9 : List Split := [⟨0, 4, 4, 5⟩, ⟨5, 9, 9, 10⟩]

end WalkForward

namespace WalkForward

/-! # Theorems -/

/-- C3: a 10-observation series with window_len=5, a single out-of-sample
segment of length 1 and non-overlapping placement yields exactly 2 splits:
split 0 covers [0,5) with out-of-sample index {4} (in-sample [0,4),
out-of-sample [4,5)), and split 1 covers [5,10) with out-of-sample index {9}
(in-sample [5,9), out-of-sample [9,10)). -/
theorem C3_rolling_split_scenario :
    rolling_split 10 5 1 none =
      Except.ok [⟨0, 4, 4, 5⟩, ⟨5, 9, 9, 10⟩] := by
  rfl

/-- C5: for every series strictly shorter than the requested window length,
the splitter fails with `InsufficientDataError` instead of returning a
(truncated) split set. -/
theorem C5_insufficient_data (len window_len oosLen : ℕ) (nOpt : Option ℕ)
    (h : len < window_len) :
    rolling_split len window_len oosLen nOpt = Except.error WFError.insufficientData := by
  simp [rolling_split, h]

/-- Witness for C5 at the concrete input len=3, window_len=5. -/
theorem C5_insufficient_data_witness :
    rolling_split 3 5 1 none = Except.error WFError.insufficientData :=
  C5_insufficient_data 3 5 1 none (by decide)

/-- C4: for every valid splitter configuration (0 < oosLen < window_len) and
every produced split: the in-sample and out-of-sample index ranges are
disjoint, every out-of-sample index strictly follows every in-sample index,
and the two range lengths sum to window_len. -/
theorem C4_split_invariants (len window_len oosLen : ℕ) (nOpt : Option ℕ)
    (splits : List Split)
    (hoos : 0 < oosLen) (hlt : oosLen < window_len)
    (hok : rolling_split len window_len oosLen nOpt = Except.ok splits) :
    ∀ sp ∈ splits,
      (∀ i, sp.inLo ≤ i → i < sp.inHi → ¬ (sp.outLo ≤ i ∧ i < sp.outHi)) ∧
      (∀ i j, sp.inLo ≤ i → i < sp.inHi → sp.outLo ≤ j → j < sp.outHi → i < j) ∧
      (sp.inHi - sp.inLo) + (sp.outHi - sp.outLo) = window_len := by
  intro sp hsp
  have hlen : ¬ len < window_len := by
    intro hc
    simp [rolling_split, hc] at hok
  simp only [rolling_split, if_neg hlen, Except.ok.injEq] at hok
  subst hok
  rcases List.mem_map.mp hsp with ⟨start, _, rfl⟩
  simp only [mkSplit]
  refine ⟨?_, ?_, ?_⟩
  · intro i h1 h2 h3
    omega
  · intro i j h1 h2 h3 h4
    omega
  · omega

/-- Witness for C4 at the concrete configuration len=10, window_len=5,
oosLen=1, non-overlapping placement, on the second produced split. -/
theorem C4_split_invariants_witness :
    (∀ i, (⟨5, 9, 9, 10⟩ : Split).inLo ≤ i → i < (⟨5, 9, 9, 10⟩ : Split).inHi →
      ¬ ((⟨5, 9, 9, 10⟩ : Split).outLo ≤ i ∧ i < (⟨5, 9, 9, 10⟩ : Split).outHi)) ∧
    (∀ i j, (⟨5, 9, 9, 10⟩ : Split).inLo ≤ i → i < (⟨5, 9, 9, 10⟩ : Split).inHi →
      (⟨5, 9, 9, 10⟩ : Split).outLo ≤ j → j < (⟨5, 9, 9, 10⟩ : Split).outHi → i < j) ∧
    ((⟨5, 9, 9, 10⟩ : Split).inHi - (⟨5, 9, 9, 10⟩ : Split).inLo) +
      ((⟨5, 9, 9, 10⟩ : Split).outHi - (⟨5, 9, 9, 10⟩ : Split).outLo) = 5 :=
  C4_split_invariants 10 5 1 none [⟨0, 4, 4, 5⟩, ⟨5, 9, 9, 10⟩] (by decide) (by decide)
    rfl ⟨5, 9, 9, 10⟩ (by decide)

/-- Strict betterness is irreflexive. -/
theorem betterB_irrefl (hb : Bool) (x : ℚ) : betterB hb x x = false := by
  cases hb <;> simp [betterB]

/-- Strict betterness is asymmetric. -/
theorem betterB_asymm (hb : Bool) (x y : ℚ) (h : betterB hb x y = true) :
    betterB hb y x = false := by
  cases hb <;> simp [betterB, not_lt] at h ⊢ <;> exact le_of_lt h

/-- Weak-order transitivity of not-better. -/
theorem betterB_trans_false (hb : Bool) (x y z : ℚ)
    (h1 : betterB hb x y = false) (h2 : betterB hb y z = false) :
    betterB hb x z = false := by
  cases hb <;> simp [betterB, not_lt] at h1 h2 ⊢ <;> linarith

/-- Selection fails on a group exactly when every row of the group is NaN. -/
theorem idxmaxAux_eq_none_iff (hb : Bool) (l : ScoreTable) :
    idxmaxAux hb l = none ↔ ∀ r ∈ l, r.2 = none := by
  induction l with
  | nil => simp [idxmaxAux]
  | cons r rest ih =>
    obtain ⟨k, o⟩ := r
    cases o with
    | none => simp [idxmaxAux, ih]
    | some v =>
      simp only [idxmaxAux]
      cases h : idxmaxAux hb rest with
      | none =>
        simp only [pickBetter]
        constructor
        · intro hc
          exact Option.noConfusion hc
        · intro hall
          exact Option.noConfusion (hall (k, some v) (List.mem_cons_self _ _))
      | some kv =>
        obtain ⟨k2, w⟩ := kv
        simp only [pickBetter]
        constructor
        · intro hc
          by_cases hbw : betterB hb w v
          · rw [if_pos hbw] at hc
            exact Option.noConfusion hc
          · rw [if_neg hbw] at hc
            exact Option.noConfusion hc
        · intro hall
          exact Option.noConfusion (hall (k, some v) (List.mem_cons_self _ _))

/-- A successful selection returns a row of the group, whose score is the
(non-NaN) returned score. -/
theorem idxmaxAux_mem (hb : Bool) (l : ScoreTable) (p : Key × ℚ)
    (h : idxmaxAux hb l = some p) : ((p.1, some p.2) : Row) ∈ l := by
  induction l generalizing p with
  | nil => simp [idxmaxAux] at h
  | cons r rest ih =>
    obtain ⟨k, o⟩ := r
    cases o with
    | none =>
      simp only [idxmaxAux] at h
      exact List.mem_cons_of_mem _ (ih p h)
    | some v =>
      simp only [idxmaxAux] at h
      cases h2 : idxmaxAux hb rest with
      | none =>
        rw [h2] at h
        simp only [pickBetter, Option.some.injEq] at h
        subst h
        exact List.mem_cons_self _ _
      | some kv =>
        obtain ⟨k2, w⟩ := kv
        rw [h2] at h
        simp only [pickBetter] at h
        by_cases hbw : betterB hb w v
        · rw [if_pos hbw] at h
          injection h with h
          subst h
          exact List.mem_cons_of_mem _ (ih _ h2)
        · rw [if_neg hbw] at h
          injection h with h
          subst h
          exact List.mem_cons_self _ _

/-- No row of the group scores strictly better than the selected score. -/
theorem idxmaxAux_extreme (hb : Bool) (l : ScoreTable) (p : Key × ℚ)
    (h : idxmaxAux hb l = some p) :
    ∀ r ∈ l, ∀ u, r.2 = some u → betterB hb u p.2 = false := by
  induction l generalizing p with
  | nil => simp [idxmaxAux] at h
  | cons r0 rest ih =>
    obtain ⟨k, o⟩ := r0
    cases o with
    | none =>
      simp only [idxmaxAux] at h
      intro r hr u hu
      rcases List.mem_cons.mp hr with hr | hr
      · subst hr
        simp at hu
      · exact ih p h r hr u hu
    | some v =>
      simp only [idxmaxAux] at h
      cases h2 : idxmaxAux hb rest with
      | none =>
        rw [h2] at h
        simp only [pickBetter, Option.some.injEq] at h
        subst h
        intro r hr u hu
        rcases List.mem_cons.mp hr with hr | hr
        · subst hr
          injection hu with hu
          subst hu
          exact betterB_irrefl _ _
        · have := (idxmaxAux_eq_none_iff hb rest).mp h2 r hr
          rw [this] at hu
          exact Option.noConfusion hu
      | some kv =>
        obtain ⟨k2, w⟩ := kv
        rw [h2] at h
        simp only [pickBetter] at h
        by_cases hbw : betterB hb w v
        · rw [if_pos hbw] at h
          injection h with h
          subst h
          intro r hr u hu
          rcases List.mem_cons.mp hr with hr | hr
          · subst hr
            injection hu with hu
            subst hu
            exact betterB_asymm _ _ _ hbw
          · exact ih (k2, w) h2 r hr u hu
        · rw [if_neg hbw] at h
          injection h with h
          subst h
          intro r hr u hu
          rcases List.mem_cons.mp hr with hr | hr
          · subst hr
            injection hu with hu
            subst hu
            exact betterB_irrefl _ _
          · have hw : betterB hb u w = false := ih (k2, w) h2 r hr u hu
            exact betterB_trans_false _ _ _ _ hw (Bool.eq_false_iff.mpr hbw)

/-- The selected row is the first row of the group attaining the extreme
score: every earlier row is strictly worse (or NaN). -/
theorem idxmaxAux_first (hb : Bool) (l : ScoreTable) (p : Key × ℚ)
    (h : idxmaxAux hb l = some p) :
    ∃ l1 l2, l = l1 ++ ((p.1, some p.2) : Row) :: l2 ∧
      ∀ r ∈ l1, ∀ v, r.2 = some v → betterB hb p.2 v = true := by
  induction l generalizing p with
  | nil => simp [idxmaxAux] at h
  | cons r0 rest ih =>
    obtain ⟨k, o⟩ := r0
    cases o with
    | none =>
      simp only [idxmaxAux] at h
      obtain ⟨l1, l2, heq, hworse⟩ := ih p h
      refine ⟨(k, none) :: l1, l2, by rw [heq]; rfl, ?_⟩
      intro r hr v hv
      rcases List.mem_cons.mp hr with hr | hr
      · subst hr
        exact Option.noConfusion hv
      · exact hworse r hr v hv
    | some v =>
      simp only [idxmaxAux] at h
      cases h2 : idxmaxAux hb rest with
      | none =>
        rw [h2] at h
        simp only [pickBetter, Option.some.injEq] at h
        subst h
        refine ⟨[], rest, rfl, ?_⟩
        intro r hr
        exact absurd hr (List.not_mem_nil r)
      | some kv =>
        obtain ⟨k2, w⟩ := kv
        rw [h2] at h
        simp only [pickBetter] at h
        by_cases hbw : betterB hb w v
        · rw [if_pos hbw] at h
          injection h with h
          subst h
          obtain ⟨l1, l2, heq, hworse⟩ := ih (k2, w) h2
          refine ⟨(k, some v) :: l1, l2, by rw [heq]; rfl, ?_⟩
          intro r hr u hu
          rcases List.mem_cons.mp hr with hr | hr
          · subst hr
            injection hu with hu
            subst hu
            exact hbw
          · exact hworse r hr u hu
        · rw [if_neg hbw] at h
          injection h with h
          subst h
          refine ⟨[], rest, rfl, ?_⟩
          intro r hr
          exact absurd hr (List.not_mem_nil r)

/-- Membership in a sorted insertion. -/
theorem mem_sortedInsert (x z : ℕ) (l : List ℕ) :
    z ∈ sortedInsert x l ↔ z = x ∨ z ∈ l := by
  induction l with
  | nil => simp [sortedInsert]
  | cons y ys ih =>
    simp only [sortedInsert]
    by_cases h1 : x < y
    · rw [if_pos h1]
      simp [List.mem_cons]
    · rw [if_neg h1]
      by_cases h2 : x = y
      · rw [if_pos h2]
        subst h2
        simp [List.mem_cons]
      · rw [if_neg h2]
        simp [List.mem_cons, ih]
        tauto

/-- Sorted insertion preserves strict sortedness. -/
theorem pairwise_sortedInsert (x : ℕ) (l : List ℕ)
    (h : List.Pairwise (· < ·) l) :
    List.Pairwise (· < ·) (sortedInsert x l) := by
  induction l with
  | nil => simp [sortedInsert]
  | cons y ys ih =>
    rcases List.pairwise_cons.mp h with ⟨hy, hys⟩
    simp only [sortedInsert]
    by_cases h1 : x < y
    · rw [if_pos h1]
      refine List.pairwise_cons.mpr ⟨?_, h⟩
      intro z hz
      rcases List.mem_cons.mp hz with rfl | hz
      · exact h1
      · exact lt_trans h1 (hy z hz)
    · rw [if_neg h1]
      by_cases h2 : x = y
      · rw [if_pos h2]
        exact h
      · rw [if_neg h2]
        refine List.pairwise_cons.mpr ⟨?_, ih hys⟩
        intro z hz
        rcases (mem_sortedInsert x z ys).mp hz with rfl | hz
        · omega
        · exact hy z hz

/-- The group keys are strictly ascending. -/
theorem pairwise_splitIdsSorted (t : ScoreTable) :
    List.Pairwise (· < ·) (splitIdsSorted t) := by
  induction t with
  | nil => simp [splitIdsSorted]
  | cons r rest ih => exact pairwise_sortedInsert r.1.1 (splitIdsSorted rest) ih

/-- The group keys are exactly the split ids occurring in the table. -/
theorem mem_splitIdsSorted (t : ScoreTable) (s : ℕ) :
    s ∈ splitIdsSorted t ↔ ∃ r ∈ t, r.1.1 = s := by
  induction t with
  | nil => simp [splitIdsSorted]
  | cons r rest ih =>
    have hdef : splitIdsSorted (r :: rest) = sortedInsert r.1.1 (splitIdsSorted rest) := rfl
    rw [hdef, mem_sortedInsert, ih]
    constructor
    · rintro (rfl | ⟨r2, hr2, rfl⟩)
      · exact ⟨r, List.mem_cons_self _ _, rfl⟩
      · exact ⟨r2, List.mem_cons_of_mem _ hr2, rfl⟩
    · rintro ⟨r2, hr2, rfl⟩
      rcases List.mem_cons.mp hr2 with rfl | hr2
      · exact Or.inl rfl
      · exact Or.inr ⟨r2, hr2, rfl⟩

/-- Selecting over a list of ids fails as soon as one id has an all-NaN
group. -/
theorem selectAll_error_of_none (hb : Bool) (t : ScoreTable) (ss : List ℕ)
    (s : ℕ) (hmem : s ∈ ss) (hnone : selectSplit hb t s = none) :
    selectAll hb t ss = Except.error WFError.noValidSelection := by
  induction ss with
  | nil => exact absurd hmem (List.not_mem_nil s)
  | cons a ss ih =>
    have hdef : selectAll hb t (a :: ss) =
        selectOne (selectSplit hb t a) (selectAll hb t ss) := rfl
    rw [hdef]
    cases ha : selectSplit hb t a with
    | none => rfl
    | some kv =>
      have hs : s ∈ ss := by
        rcases List.mem_cons.mp hmem with rfl | hsmem
        · rw [ha] at hnone
          exact Option.noConfusion hnone
        · exact hsmem
      rw [ih hs]
      rfl

/-- The selected key of a split carries that split's id. -/
theorem selectSplit_fst (hb : Bool) (t : ScoreTable) (s : ℕ) (p : Key × ℚ)
    (h : selectSplit hb t s = some p) : p.1.1 = s := by
  have hmem := idxmaxAux_mem hb (groupOf t s) p h
  have := (List.mem_filter.mp hmem).2
  exact of_decide_eq_true this

/-- When every listed split has a selection, selection over the list
succeeds, returning one key per id carrying exactly these ids. -/
theorem selectAll_ok_map (hb : Bool) (t : ScoreTable) (ss : List ℕ)
    (hall : ∀ s ∈ ss, selectSplit hb t s ≠ none) :
    ∃ ks, selectAll hb t ss = Except.ok ks ∧ ks.map (fun k => k.1) = ss := by
  induction ss with
  | nil => exact ⟨[], rfl, rfl⟩
  | cons a ss ih =>
    cases ha : selectSplit hb t a with
    | none => exact absurd ha (hall a (List.mem_cons_self _ _))
    | some kv =>
      obtain ⟨ks, hok, hmap⟩ := ih (fun s hs => hall s (List.mem_cons_of_mem _ hs))
      refine ⟨kv.1 :: ks, ?_, ?_⟩
      · have hdef : selectAll hb t (a :: ss) =
            selectOne (selectSplit hb t a) (selectAll hb t ss) := rfl
        rw [hdef, ha, hok]
        rfl
      · simp only [List.map_cons, hmap, selectSplit_fst hb t a kv ha]

/-- C1: whenever a split's group holds at least one non-NaN row, selection
for that split returns a pair whose table score is non-NaN; when every row
of the split's group is NaN, per-split selection yields no pair, and
`get_best_index` on a table containing that split fails with
`NoValidSelectionError`. -/
theorem C1_best_selection (hb : Bool) (t : ScoreTable) (s : ℕ) :
    (∀ k v, ((k, some v) : Row) ∈ groupOf t s →
      ∃ p, selectSplit hb t s = some p ∧ ((p.1, some p.2) : Row) ∈ groupOf t s) ∧
    ((∀ r ∈ groupOf t s, r.2 = none) →
      selectSplit hb t s = none ∧
      (s ∈ splitIdsSorted t →
        get_best_index hb t = Except.error WFError.noValidSelection)) := by
  constructor
  · intro k v hkv
    cases hsel : selectSplit hb t s with
    | none =>
      have := (idxmaxAux_eq_none_iff hb (groupOf t s)).mp hsel (k, some v) hkv
      exact Option.noConfusion this
    | some p =>
      exact ⟨p, rfl, idxmaxAux_mem hb (groupOf t s) p hsel⟩
  · intro hall
    have hnone : selectSplit hb t s = none :=
      (idxmaxAux_eq_none_iff hb (groupOf t s)).mpr hall
    exact ⟨hnone, fun hs => selectAll_error_of_none hb t (splitIdsSorted t) s hs hnone⟩

/-- Witness for C1 on a concrete table: split 0 holds a non-NaN row and is
selected with a non-NaN score; split 1 is all NaN and makes
`get_best_index` fail. -/
theorem C1_best_selection_witness :
    (∃ p, selectSplit true tC1 0 = some p ∧ ((p.1, some p.2) : Row) ∈ groupOf tC1 0) ∧
    selectSplit true tC1 1 = none ∧
    get_best_index true tC1 = Except.error WFError.noValidSelection :=
  ⟨(C1_best_selection true tC1 0).1 (0, (10, 20)) 1 (by decide),
   ((C1_best_selection true tC1 1).2 (by decide)).1,
   ((C1_best_selection true tC1 1).2 (by decide)).2 (by decide)⟩

/-- C10: when every split present in the table has a non-NaN entry,
`get_best_index` succeeds with exactly one key per distinct split_idx of the
table, in strictly ascending split_idx order; consequently the in-sample
best-score vector (one entry per returned key) and the out-of-sample score
vector produced by `simulate_best_params` over one price column per split
have equal length. -/
theorem C10_alignment (hb : Bool) (t : ScoreTable)
    (hall : ∀ s ∈ splitIdsSorted t, selectSplit hb t s ≠ none) :
    ∃ ks, get_best_index hb t = Except.ok ks ∧
      ks.map (fun k => k.1) = splitIdsSorted t ∧
      List.Pairwise (· < ·) (ks.map (fun k => k.1)) ∧
      (∀ s, s ∈ ks.map (fun k => k.1) ↔ ∃ r ∈ t, r.1.1 = s) ∧
      (∀ (sim : List ℚ → Pair → ℚ) (prices : List (List ℚ)),
        prices.length = ks.length →
        (simulate_best_params sim prices
            (get_best_params ks Level.fastWindow)
            (get_best_params ks Level.slowWindow)).length = ks.length) := by
  obtain ⟨ks, hok, hmap⟩ := selectAll_ok_map hb t (splitIdsSorted t) hall
  refine ⟨ks, hok, hmap, ?_, ?_, ?_⟩
  · rw [hmap]
    exact pairwise_splitIdsSorted t
  · intro s
    rw [hmap]
    exact mem_splitIdsSorted t s
  · intro sim prices hlen
    simp only [simulate_best_params, get_best_params, List.length_map,
      List.length_zip, hlen]
    omega

/-- Witness for C10 on a concrete two-split table. -/
theorem C10_alignment_witness :
    ∃ ks, get_best_index true tC10 = Except.ok ks ∧
      ks.map (fun k => k.1) = splitIdsSorted tC10 ∧
      List.Pairwise (· < ·) (ks.map (fun k => k.1)) ∧
      (∀ s, s ∈ ks.map (fun k => k.1) ↔ ∃ r ∈ tC10, r.1.1 = s) ∧
      (∀ (sim : List ℚ → Pair → ℚ) (prices : List (List ℚ)),
        prices.length = ks.length →
        (simulate_best_params sim prices
            (get_best_params ks Level.fastWindow)
            (get_best_params ks Level.slowWindow)).length = ks.length) :=
  C10_alignment true tC10 (by decide)

/-- Lexicographic order refutes equality. -/
theorem lexLt_ne (p q : Pair) (h : lexLt p q) : p ≠ q := by
  rintro rfl
  rcases h with h | ⟨-, h⟩ <;> exact lt_irrefl _ h

/-- Grid length: C(k,2) pairs for k candidates. -/
theorem run_combs_pairs_length (l : List ℕ) :
    (run_combs_pairs l).length = l.length.choose 2 := by
  induction l with
  | nil => rfl
  | cons x xs ih =>
    simp only [run_combs_pairs, List.length_append, List.length_map, ih,
      List.length_cons, Nat.choose_succ_succ, Nat.choose_one_right]

/-- Both components of a grid pair are candidates. -/
theorem run_combs_pairs_mem (l : List ℕ) (p : Pair) (h : p ∈ run_combs_pairs l) :
    p.1 ∈ l ∧ p.2 ∈ l := by
  induction l with
  | nil => simp [run_combs_pairs] at h
  | cons x xs ih =>
    simp only [run_combs_pairs, List.mem_append] at h
    rcases h with h | h
    · rcases List.mem_map.mp h with ⟨y, hy, rfl⟩
      exact ⟨List.mem_cons_self _ _, List.mem_cons_of_mem _ hy⟩
    · obtain ⟨h1, h2⟩ := ih h
      exact ⟨List.mem_cons_of_mem _ h1, List.mem_cons_of_mem _ h2⟩

/-- C2: for a strictly increasing candidate list, the parameter grid holds
exactly C(k,2) pairs, each with first component strictly below the second,
in strictly increasing lexicographic order (hence without duplicates); and
candidates [10,20,30] yield exactly (10,20),(10,30),(20,30) in that
order. -/
theorem C2_parameter_grid (l : List ℕ) (h : List.Pairwise (· < ·) l) :
    (run_combs_pairs l).length = l.length.choose 2 ∧
    (∀ p ∈ run_combs_pairs l, p.1 < p.2) ∧
    List.Pairwise lexLt (run_combs_pairs l) ∧
    (run_combs_pairs l).Nodup ∧
    run_combs_pairs [10, 20, 30] = [(10, 20), (10, 30), (20, 30)] := by
  refine ⟨run_combs_pairs_length l, ?_, ?_, ?_, rfl⟩
  · induction l with
    | nil => intro p hp; simp [run_combs_pairs] at hp
    | cons x xs ih =>
      rcases List.pairwise_cons.mp h with ⟨hx, hxs⟩
      intro p hp
      rcases List.mem_append.mp hp with hp | hp
      · rcases List.mem_map.mp hp with ⟨y, hy, rfl⟩
        exact hx y hy
      · exact ih hxs p hp
  · induction l with
    | nil => exact List.Pairwise.nil
    | cons x xs ih =>
      rcases List.pairwise_cons.mp h with ⟨hx, hxs⟩
      refine List.pairwise_append.mpr ⟨?_, ih hxs, ?_⟩
      · refine List.pairwise_map.mpr ?_
        refine hxs.imp_of_mem ?_
        intro a b _ _ hab
        exact Or.inr ⟨rfl, hab⟩
      · intro a ha b hb
        rcases List.mem_map.mp ha with ⟨y, _, rfl⟩
        exact Or.inl (hx b.1 (run_combs_pairs_mem xs b hb).1)
  · have hpw : List.Pairwise lexLt (run_combs_pairs l) := by
      induction l with
      | nil => exact List.Pairwise.nil
      | cons x xs ih =>
        rcases List.pairwise_cons.mp h with ⟨hx, hxs⟩
        refine List.pairwise_append.mpr ⟨?_, ih hxs, ?_⟩
        · refine List.pairwise_map.mpr ?_
          refine hxs.imp_of_mem ?_
          intro a b _ _ hab
          exact Or.inr ⟨rfl, hab⟩
        · intro a ha b hb
          rcases List.mem_map.mp ha with ⟨y, _, rfl⟩
          exact Or.inl (hx b.1 (run_combs_pairs_mem xs b hb).1)
    exact hpw.imp₂ (fun p q hpq _ => lexLt_ne p q hpq) hpw

/-- Witness for C2 at the concrete candidate list [10,20,30]. -/
theorem C2_parameter_grid_witness :
    (run_combs_pairs [10, 20, 30]).length = ([10, 20, 30] : List ℕ).length.choose 2 ∧
    (∀ p ∈ run_combs_pairs [10, 20, 30], p.1 < p.2) ∧
    List.Pairwise lexLt (run_combs_pairs [10, 20, 30]) ∧
    (run_combs_pairs [10, 20, 30]).Nodup ∧
    run_combs_pairs [10, 20, 30] = [(10, 20), (10, 30), (20, 30)] :=
  C2_parameter_grid [10, 20, 30] (by decide)

/-- C8 counterexample: the two tied tables hold the same rows in opposite
order, yet `get_best_index` selects the (10,20) row from one ordering and
the (20,30) row from the other — the tie-break follows table row order, not
grid enumeration order alone; on the reversed table it returns the pair
that appears later in the grid enumeration [(10,20),(10,30),(20,30)]. -/
theorem C8_tie_break_counterexample :
    run_combs_pairs [10, 20, 30] = [(10, 20), (10, 30), (20, 30)] ∧
    tC8B = tC8A.reverse ∧
    (∀ r, r ∈ tC8A ↔ r ∈ tC8B) ∧
    get_best_index true tC8A = Except.ok [(0, (10, 20))] ∧
    get_best_index true tC8B = Except.ok [(0, (20, 30))] := by
  refine ⟨rfl, rfl, ?_, rfl, rfl⟩
  intro r
  constructor <;> intro hr <;> simp only [tC8A, tC8B, List.mem_cons] at hr ⊢ <;> tauto

/-- C8 amended: the selected pair is the one whose row appears first in the
split's group in table row order among the rows attaining the extreme
score: every earlier row is NaN or strictly worse, and no later row is
strictly better.  (When the group's rows are listed in grid enumeration
order — as the notebook's pipeline produces them — this coincides with the
grid-order tie-break.) -/
theorem C8_tie_break_amended (hb : Bool) (t : ScoreTable) (s : ℕ) (p : Key × ℚ)
    (h : selectSplit hb t s = some p) :
    ∃ l1 l2, groupOf t s = l1 ++ ((p.1, some p.2) : Row) :: l2 ∧
      (∀ r ∈ l1, ∀ v, r.2 = some v → betterB hb p.2 v = true) ∧
      (∀ r ∈ l2, ∀ v, r.2 = some v → betterB hb v p.2 = false) := by
  obtain ⟨l1, l2, heq, hworse⟩ := idxmaxAux_first hb (groupOf t s) p h
  refine ⟨l1, l2, heq, hworse, ?_⟩
  intro r hr v hv
  refine idxmaxAux_extreme hb (groupOf t s) p h r ?_ v hv
  rw [heq]
  exact List.mem_append_right _ (List.mem_cons_of_mem _ hr)

/-- Witness for the amended C8 on the reversed tied table. -/
theorem C8_tie_break_witness :
    ∃ l1 l2, groupOf tC8B 0 = l1 ++ (((0, (20, 30)), some 1) : Row) :: l2 ∧
      (∀ r ∈ l1, ∀ v, r.2 = some v → betterB true ((1 : ℚ)) v = true) ∧
      (∀ r ∈ l2, ∀ v, r.2 = some v → betterB true v ((1 : ℚ)) = false) :=
  C8_tie_break_amended true tC8B 0 ((0, (20, 30)), 1) (by decide)

/-- C6: the significance comparison fails with `MisalignedInputError` on
score vectors of unequal length or on empty vectors, and succeeds exactly
when both vectors have equal nonzero length. -/
theorem C6_misaligned_input (ttest : TTestCall → ℚ × ℚ)
    (in_sample_scores out_sample_scores : List ℚ) (threshold : ℚ) :
    ((in_sample_scores.length ≠ out_sample_scores.length ∨ in_sample_scores.length = 0) →
      compareScores ttest in_sample_scores out_sample_scores threshold =
        Except.error WFError.misalignedInput) ∧
    ((in_sample_scores.length = out_sample_scores.length ∧ in_sample_scores.length ≠ 0) →
      ∃ st pv dec, compareScores ttest in_sample_scores out_sample_scores threshold =
        Except.ok (st, pv, dec)) := by
  constructor
  · intro h
    have hc : ¬ (in_sample_scores.length = out_sample_scores.length ∧
        in_sample_scores.length ≠ 0) := by tauto
    simp only [compareScores]
    rw [if_neg hc]
  · intro h
    simp only [compareScores]
    rw [if_pos h]
    exact ⟨_, _, _, rfl⟩

/-- Witness for C6: an unequal-length pair fails, an equal-length pair
succeeds. -/
theorem C6_misaligned_input_witness :
    compareScores (fun _ => ((0 : ℚ), 1)) [1, 2] [1] (1 / 20) =
      Except.error WFError.misalignedInput ∧
    ∃ st pv dec, compareScores (fun _ => ((0 : ℚ), 1)) [1, 2] [3, 4] (1 / 20) =
      Except.ok (st, pv, dec) :=
  ⟨(C6_misaligned_input (fun _ => ((0 : ℚ), 1)) [1, 2] [1] (1 / 20)).1 (by decide),
   (C6_misaligned_input (fun _ => ((0 : ℚ), 1)) [1, 2] [3, 4] (1 / 20)).2 (by decide)⟩

/-- C7: the notebook's significance check calls the two-sample test with
the out-of-sample score vector as the first sample, the in-sample best
vector as the second, and alternative "greater" (out-of-sample hypothesized
greater); its boolean outcome is true exactly when the returned p-value
exceeds the 0.05 threshold — a high p-value yields true (the signal against
generalization), never the inverse. -/
theorem C7_significance_decision (ttest : TTestCall → ℚ × ℚ)
    (out_sample_test in_sample_best : List ℚ) :
    (ttestCallOfRun out_sample_test in_sample_best).a = out_sample_test ∧
    (ttestCallOfRun out_sample_test in_sample_best).b = in_sample_best ∧
    (ttestCallOfRun out_sample_test in_sample_best).alternative = Alt.greater ∧
    (∀ st pv, ttest (ttestCallOfRun out_sample_test in_sample_best) = (st, pv) →
      (overfitSignal ttest out_sample_test in_sample_best = true ↔ pv > 1 / 20)) := by
  refine ⟨rfl, rfl, rfl, ?_⟩
  intro st pv h
  simp [overfitSignal, h]

/-- Witness for C7 with a stub test returning p-value 1/10. -/
theorem C7_significance_decision_witness :
    overfitSignal (fun _ => ((0 : ℚ), 1 / 10)) [1] [2] = true ↔ (1 : ℚ) / 10 > 1 / 20 :=
  (C7_significance_decision (fun _ => ((0 : ℚ), 1 / 10)) [1] [2]).2.2.2 0 (1 / 10) rfl

/-- One segment of a series holds exactly the observations of its index
range. -/
theorem segmentOf_getElem? (series : List ℚ) (lo hi j : ℕ) :
    (segmentOf series lo hi)[j]? =
      if j < hi - lo then series[lo + j]? else none := by
  by_cases hj : j < hi - lo
  · rw [if_pos hj, segmentOf, List.getElem?_take_of_lt hj, List.getElem?_drop]
  · rw [if_neg hj]
    have hlen : (segmentOf series lo hi).length ≤ hi - lo := by
      simp only [segmentOf, List.length_take]
      omega
    exact List.getElem?_eq_none (by omega)

/-- A segment only depends on the observations inside its index range. -/
theorem segmentOf_congr (s1 s2 : List ℚ) (lo hi : ℕ)
    (h : ∀ j, lo ≤ j → j < hi → s1[j]? = s2[j]?) :
    segmentOf s1 lo hi = segmentOf s2 lo hi := by
  apply List.ext_getElem?
  intro j
  rw [segmentOf_getElem?, segmentOf_getElem?]
  by_cases hj : j < hi - lo
  · rw [if_pos hj, if_pos hj]
    exact h (lo + j) (by omega) (by omega)
  · rw [if_neg hj, if_neg hj]

/-- The i-th out-of-sample score is one simulator call on the i-th column
with the i-th parameter pair. -/
theorem simulate_best_params_getElem? (sim : List ℚ → Pair → ℚ) :
    ∀ (cols : List (List ℚ)) (fs ss : List ℕ) (i : ℕ) (c : List ℚ) (f s : ℕ),
      cols[i]? = some c → fs[i]? = some f → ss[i]? = some s →
      (simulate_best_params sim cols fs ss)[i]? = some (sim c (f, s)) := by
  intro cols
  induction cols with
  | nil =>
    intro fs ss i c f s hc
    simp at hc
  | cons c0 cols ih =>
    intro fs ss i c f s hc hf hs
    cases fs with
    | nil => simp at hf
    | cons f0 fs =>
      cases ss with
      | nil => simp at hs
      | cons s0 ss =>
        have hstep : simulate_best_params sim (c0 :: cols) (f0 :: fs) (s0 :: ss)
            = sim c0 (f0, s0) :: simulate_best_params sim cols fs ss := rfl
        cases i with
        | zero =>
          simp only [List.getElem?_cons_zero, Option.some.injEq] at hc hf hs
          subst hc
          subst hf
          subst hs
          rw [hstep, List.getElem?_cons_zero]
        | succ i =>
          simp only [List.getElem?_cons_succ] at hc hf hs
          rw [hstep, List.getElem?_cons_succ]
          exact ih fs ss i c f s hc hf hs

/-- C9: for a split with a selection, out-of-sample validation invokes the
simulator exactly once for that split — on the split's single selected
parameter pair and its out-of-sample column only (conjunct 1); that column
holds exactly the observations with indices in the out-of-sample range
(conjunct 2); and rewriting any in-sample observation leaves the column,
hence the score, unchanged (conjunct 3). -/
theorem C9_out_of_sample_validation (sim : List ℚ → Pair → ℚ)
    (series series2 : List ℚ) (splits : List Split) (fasts slows : List ℕ)
    (i : ℕ) (sp : Split) (f s : ℕ)
    (hsp : splits[i]? = some sp) (hf : fasts[i]? = some f) (hs : slows[i]? = some s)
    (hagree : ∀ j, sp.outLo ≤ j → j < sp.outHi → series[j]? = series2[j]?) :
    (simulate_best_params sim (outSegments series splits) fasts slows)[i]?
      = some (sim (segmentOf series sp.outLo sp.outHi) (f, s)) ∧
    (∀ j, (segmentOf series sp.outLo sp.outHi)[j]? =
      if j < sp.outHi - sp.outLo then series[sp.outLo + j]? else none) ∧
    segmentOf series sp.outLo sp.outHi = segmentOf series2 sp.outLo sp.outHi := by
  refine ⟨?_, fun j => segmentOf_getElem? series sp.outLo sp.outHi j,
    segmentOf_congr series series2 sp.outLo sp.outHi hagree⟩
  have hcol : (outSegments series splits)[i]? =
      some (segmentOf series sp.outLo sp.outHi) := by
    simp [outSegments, hsp]
  exact simulate_best_params_getElem? sim (outSegments series splits) fasts slows
    i _ f s hcol hf hs

/-- Witness for C9: split 1 of the 10-point scenario, with a stub simulator
and a series rewritten everywhere outside the out-of-sample range. -/
theorem C9_out_of_sample_validation_witness :
    (simulate_best_params (fun _ p => (p.1 : ℚ)) (outSegments sC9 splitsC9) [10, 12] [20, 22])[1]?
      = some ((fun (_ : List ℚ) (p : Pair) => (p.1 : ℚ)) (segmentOf sC9 9 10) (12, 22)) ∧
    (∀ j, (segmentOf sC9 9 10)[j]? = if j < 10 - 9 then sC9[9 + j]? else none) ∧
    segmentOf sC9 9 10 = segmentOf sC9b 9 10 :=
  C9_out_of_sample_validation (fun _ p => (p.1 : ℚ)) sC9 sC9b splitsC9 [10, 12] [20, 22]
    1 ⟨5, 9, 9, 10⟩ 12 22 (by decide) (by decide) (by decide)
    (by
      intro j h1 h2
      have h1b : 9 ≤ j := h1
      have h2b : j < 10 := h2
      have hj : j = 9 := by omega
      subst hj
      rfl)

end WalkForward
